import Mathlib

/-!
Verification of the todo-app task engine: a shallow embedding of the
domain model (`src/todo/domain/models.py`), the in-memory repository
(`src/todo/repository/memory_repo.py`) and the application service layer
(`src/todo/application/services.py`), together with theorems settling the
specification claims about them.

Conventions of the embedding:
* Python `datetime` timestamps are modelled as `Nat` (an opaque totally
  ordered clock value); `datetime.date` is the `Date` structure below,
  compared componentwise exactly as Python compares `date` values.
* Python's `dict[int, Task]` (insertion ordered, as guaranteed since
  Python 3.7) is modelled as an association list `List (Nat × α)` with
  the dict operations `keyLookup` / `keySet` / `keyErase`.
* The `...` (Ellipsis) sentinel used by `update` for three-valued field
  semantics is modelled by an outer `Option` layer: `none` = argument not
  provided (the sentinel), `some v` = argument provided with value `v`.
* Exceptions are modelled by `Except Err`; a state-mutating operation
  returns `Except Err α × Repo`, the repository component being the state
  at the moment the operation returns or raises.
* Python's stable `sorted` is modelled by a stable insertion sort
  (`sortBy`) over the same boolean key comparison that the Python `key`
  tuples induce.
-/

namespace Todo

/-- Task status, `Status = Literal["open", "done"]` in `models.py`. -/
inductive Status where
  | «open»
  | done
deriving DecidableEq

/-- Task priority, `Priority = Literal["low", "med", "high"]` in `models.py`. -/
inductive Priority where
  | low
  | med
  | high
deriving DecidableEq

/-- A calendar date, modelling Python's `datetime.date`.  Python compares
dates componentwise by `(year, month, day)`; see `Date.ltb` below. -/
structure Date where
  year : Nat
  month : Nat
  day : Nat
deriving DecidableEq

/-- `datetime.date.max`, i.e. 9999-12-31, used by `_sort_tasks` as the key
for tasks without a due date. -/
def date_max : Date := ⟨9999, 12, 31⟩

/-- Strict comparison of dates, exactly Python's `date.__lt__`:
lexicographic on `(year, month, day)`. -/
def Date.ltb (a b : Date) : Bool :=
  a.year < b.year ||
    (a.year == b.year &&
      (a.month < b.month || (a.month == b.month && a.day < b.day)))

/-- The `Task` dataclass of `models.py`. -/
structure Task where
  id : Nat
  title : String
  status : Status
  created_at : Nat
  due_date : Option Date
  priority : Option Priority
  tags : List String
deriving DecidableEq

/-- The two domain error kinds of `errors.py`: `ValidationError` (carries a
message) and `TaskNotFoundError` (carries the offending id). -/
inductive Err where
  | validation (message : String)
  | notFound (task_id : Nat)
deriving DecidableEq

/-- Decidable equality of `Except` results, so that concrete runs can be
checked by `decide`. -/
instance {ε α : Type} [DecidableEq ε] [DecidableEq α] : DecidableEq (Except ε α) :=
  fun a b =>
    match a, b with
    | .ok x, .ok y => decidable_of_iff (x = y) (by simp)
    | .error x, .error y => decidable_of_iff (x = y) (by simp)
    | .ok _, .error _ => .isFalse (fun h => by cases h)
    | .error _, .ok _ => .isFalse (fun h => by cases h)

/-! ### Association-list model of Python's insertion-ordered `dict` -/

/-- `d[k]` as a total lookup: the value at the first (unique, for genuine
dicts) entry with key `k`. -/
def keyLookup {α : Type} (l : List (Nat × α)) (k : Nat) : Option α :=
  match l with
  | [] => none
  | p :: ps => if p.1 = k then some p.2 else keyLookup ps k

/-- `k in d`. -/
def keyContains {α : Type} (l : List (Nat × α)) (k : Nat) : Bool :=
  match l with
  | [] => false
  | p :: ps => p.1 == k || keyContains ps k

/-- `d[k] = v`: replace in place when the key is present (a dict keeps the
entry's position), append otherwise. -/
def keySet {α : Type} (l : List (Nat × α)) (k : Nat) (v : α) : List (Nat × α) :=
  if keyContains l k then l.map (fun p => if p.1 = k then (k, v) else p)
  else l ++ [(k, v)]

/-- `del d[k]`, preserving the order of the remaining entries. -/
def keyErase {α : Type} (l : List (Nat × α)) (k : Nat) : List (Nat × α) :=
  l.filter (fun p => p.1 != k)

/-- The keys of the dict are pairwise distinct.  Every genuine Python dict
satisfies this; it is part of the repository well-formedness invariant. -/
def kNodup {α : Type} (l : List (Nat × α)) : Prop :=
  (l.map Prod.fst).Nodup

/-! ### Character-level models of the Python `str` methods used -/

/-- The ASCII whitespace characters recognised by Python's `str.strip()`. -/
def isPySpace (c : Char) : Bool :=
  c == ' ' || c == '\t' || c == '\n' || c == '\r' || c == '\x0b' || c == '\x0c'

/-- `str.strip()` on the character list: drop whitespace from both ends. -/
def trimChars (l : List Char) : List Char :=
  ((l.dropWhile isPySpace).reverse.dropWhile isPySpace).reverse

/-- `str.split(",")` on the character list: `splitCommas [] = [[]]`, matching
Python's `"".split(",") == [""]`. -/
def splitCommas : List Char → List (List Char)
  | [] => [[]]
  | c :: cs =>
    if c = ',' then [] :: splitCommas cs
    else
      match splitCommas cs with
      | [] => [[c]]
      | g :: gs => (c :: g) :: gs

/-- `str.lower()` on the character list (ASCII case folding). -/
def lowerChars (l : List Char) : List Char :=
  l.map Char.toLower

/-! ### Date parsing (`date.fromisoformat`) -/

/-- Numeric value of an ASCII digit character. -/
def digitVal (c : Char) : Nat := c.toNat - '0'.toNat

/-- Gregorian leap-year rule, as implemented by Python's `datetime`. -/
def isLeapYear (y : Nat) : Bool :=
  y % 4 == 0 && (y % 100 != 0 || y % 400 == 0)

/-- Number of days in a month of the proleptic Gregorian calendar. -/
def daysInMonth (y m : Nat) : Nat :=
  if m = 2 then (if isLeapYear y then 29 else 28)
  else if m = 4 ∨ m = 6 ∨ m = 9 ∨ m = 11 then 30
  else 31

/-- Modelled from the spec: the Python standard library's
`date.fromisoformat` (not part of this repository's sources), per its
documented behaviour for `YYYY-MM-DD` input: exactly ten characters
`DDDD-DD-DD` (digits and two hyphens), denoting a real proleptic Gregorian
calendar date with `MINYEAR = 1 ≤ year` (four digits also bound it by
`MAXYEAR = 9999`), `1 ≤ month ≤ 12` and `1 ≤ day` at most the month's
length.  Returns `none` where Python raises `ValueError`. -/
def fromISOChars : List Char → Option Date
  | [y1, y2, y3, y4, h1, m1, m2, h2, d1, d2] =>
    if y1.isDigit && y2.isDigit && y3.isDigit && y4.isDigit &&
        h1 = '-' && m1.isDigit && m2.isDigit && h2 = '-' &&
        d1.isDigit && d2.isDigit then
      let y := 1000 * digitVal y1 + 100 * digitVal y2 + 10 * digitVal y3 + digitVal y4
      let m := 10 * digitVal m1 + digitVal m2
      let d := 10 * digitVal d1 + digitVal d2
      if 1 ≤ y && 1 ≤ m && m ≤ 12 && 1 ≤ d && d ≤ daysInMonth y m then
        some ⟨y, m, d⟩
      else none
    else none
  | _ => none

/-- `date.fromisoformat` on a string. -/
def Date.fromisoformat (s : String) : Option Date :=
  fromISOChars s.toList

/-! ### Validation module (`models.py`) -/

/-- `validate_title`: strip whitespace, reject when the result is empty. -/
def validate_title (title : String) : Except Err String :=
  let stripped := trimChars title.toList
  if stripped.isEmpty then .error (.validation "Title cannot be empty")
  else .ok (String.mk stripped)

/-- `parse_due_date`: absent input yields absent output; otherwise parse as
an ISO `YYYY-MM-DD` date, raising `ValidationError` on failure with a
message naming the input and the expected format. -/
def parse_due_date : Option String → Except Err (Option Date)
  | none => .ok none
  | some s =>
    match Date.fromisoformat s with
    | some d => .ok (some d)
    | none => .error (.validation ("Invalid date format: " ++ s ++ ". Expected YYYY-MM-DD"))

/-- `validate_priority`: absent yields absent; otherwise the string must be
exactly one of `low`, `med`, `high`. -/
def validate_priority : Option String → Except Err (Option Priority)
  | none => .ok none
  | some s =>
    if s = "low" then .ok (some .low)
    else if s = "med" then .ok (some .med)
    else if s = "high" then .ok (some .high)
    else .error (.validation ("Invalid priority: " ++ s ++ ". Must be one of: low, med, high"))

/-- `parse_tags`: absent yields `[]`; otherwise split on commas, strip each
piece, drop pieces that are empty after stripping, preserving order. -/
def parse_tags : Option String → List String
  | none => []
  | some s =>
    ((splitCommas s.toList).map trimChars).filter (fun t => !t.isEmpty)
      |>.map String.mk

/-! ### Repository (`memory_repo.py`) -/

/-- Status filter vocabulary of `list_all`. -/
inductive StatusFilter where
  | all
  | «open»
  | done
deriving DecidableEq

/-- `SortField = Literal["created", "due", "priority"]`. -/
inductive SortField where
  | created
  | due
  | priority
deriving DecidableEq

/-- `MemoryTaskRepository` state: `_tasks : dict[int, Task]` and
`_next_id : int`. -/
structure Repo where
  tasks : List (Nat × Task)
  next_id : Nat
deriving DecidableEq

/-- `MemoryTaskRepository.__init__`: empty dict, counter starts at 1. -/
def Repo.empty : Repo := ⟨[], 1⟩

/-- `MemoryTaskRepository.add`: build the task with the next id and status
`open`, store it under that id, advance the counter, return the task. -/
def Repo.add (r : Repo) (title : String) (created_at : Nat)
    (due_date : Option Date) (priority : Option Priority)
    (tags : Option (List String)) : Task × Repo :=
  let task : Task :=
    { id := r.next_id, title := title, status := .«open», created_at := created_at,
      due_date := due_date, priority := priority, tags := tags.getD [] }
  (task, { tasks := keySet r.tasks r.next_id task, next_id := r.next_id + 1 })

/-- `MemoryTaskRepository.get`: raise `TaskNotFoundError` when absent. -/
def Repo.get (r : Repo) (task_id : Nat) : Except Err Task :=
  match keyLookup r.tasks task_id with
  | none => .error (.notFound task_id)
  | some t => .ok t

/-- The field-assignment block of `MemoryTaskRepository.update`: apply each
provided field to the task, in source order (title, status, due_date,
priority, tags); `tags or []` maps a provided `None` to the empty list. -/
def applyFields (task0 : Task) (title : Option String) (status : Option Status)
    (due_date : Option (Option Date)) (priority : Option (Option Priority))
    (tags : Option (Option (List String))) : Task :=
  let task1 := match title with | some t => { task0 with title := t } | none => task0
  let task2 := match status with | some s => { task1 with status := s } | none => task1
  let task3 := match due_date with | some d => { task2 with due_date := d } | none => task2
  let task4 := match priority with | some p => { task3 with priority := p } | none => task3
  match tags with | some tg => { task4 with tags := tg.getD [] } | none => task4

/-- `MemoryTaskRepository.update`.  The outer `Option` on `due_date`,
`priority` and `tags` models the `...` sentinel (`none` = not provided);
`title` and `status` use plain `None` (`none`) as their not-provided
marker, exactly as in the source.  The task object is mutated in place,
i.e. the stored record under `task_id` is replaced, keeping its dict
position. -/
def Repo.update (r : Repo) (task_id : Nat) (title : Option String)
    (status : Option Status) (due_date : Option (Option Date))
    (priority : Option (Option Priority)) (tags : Option (Option (List String))) :
    Except Err Task × Repo :=
  match Repo.get r task_id with
  | .error e => (.error e, r)
  | .ok task0 =>
    let task5 := applyFields task0 title status due_date priority tags
    (.ok task5, { r with tasks := keySet r.tasks task_id task5 })

/-- `MemoryTaskRepository.delete`: raise `TaskNotFoundError` when absent,
otherwise remove the entry. -/
def Repo.delete (r : Repo) (task_id : Nat) : Except Err Unit × Repo :=
  if keyContains r.tasks task_id then
    (.ok (), { r with tasks := keyErase r.tasks task_id })
  else (.error (.notFound task_id), r)

/-- `MemoryTaskRepository.clear_done`: drop every task whose status is
`done`, return how many were dropped. -/
def Repo.clear_done (r : Repo) : Nat × Repo :=
  let done_count := (r.tasks.filter (fun p => p.2.status == Status.done)).length
  (done_count, { r with tasks := r.tasks.filter (fun p => p.2.status != Status.done) })

/-- The `priority_order` table of `_sort_tasks`:
`{"high": 0, "med": 1, "low": 2, None: 3}`. -/
def priority_order : Option Priority → Nat
  | some .high => 0
  | some .med => 1
  | some .low => 2
  | none => 3

/-- Key comparison induced by `sorted(tasks, key=lambda t: (t.created_at, t.id))`. -/
def createdLeB (t u : Task) : Bool :=
  t.created_at < u.created_at || (t.created_at == u.created_at && t.id ≤ u.id)

/-- The date component of the `due` sort key: the task's due date, or
`date.max` when it has none, as built by `due_key` in `_sort_tasks`. -/
def dueKeyDate (t : Task) : Date :=
  (t.due_date).getD date_max

/-- The leading component of the `due` sort key: 0 for dated tasks,
1 for undated ones. -/
def dueGroup (t : Task) : Nat :=
  if t.due_date.isSome then 0 else 1

/-- Key comparison induced by `due_key`: lexicographic on
`(group, date-or-max, id)`. -/
def dueLeB (t u : Task) : Bool :=
  dueGroup t < dueGroup u ||
    (dueGroup t == dueGroup u &&
      (Date.ltb (dueKeyDate t) (dueKeyDate u) ||
        (dueKeyDate t == dueKeyDate u && t.id ≤ u.id)))

/-- Key comparison induced by
`sorted(tasks, key=lambda t: (priority_order[t.priority], t.id))`. -/
def prioLeB (t u : Task) : Bool :=
  priority_order t.priority < priority_order u.priority ||
    (priority_order t.priority == priority_order u.priority && t.id ≤ u.id)

/-- Stable insertion into a list sorted by `le`: the element goes in front
of the first entry it compares `le` to. -/
def insertLe {α : Type} (le : α → α → Bool) (a : α) : List α → List α
  | [] => [a]
  | b :: l => if le a b then a :: b :: l else b :: insertLe le a l

/-- Stable insertion sort, modelling Python's stable `sorted` (for the
total key orders used here the two agree elementwise). -/
def sortBy {α : Type} (le : α → α → Bool) : List α → List α
  | [] => []
  | a :: l => insertLe le a (sortBy le l)

/-- `MemoryTaskRepository._sort_tasks`. -/
def sort_tasks (tasks : List Task) : SortField → List Task
  | .created => sortBy createdLeB tasks
  | .due => sortBy dueLeB tasks
  | .priority => sortBy prioLeB tasks

/-- `MemoryTaskRepository.list_all`: take the dict values, filter by
status, then by tag (case-insensitively), then sort.  The result is a new
list each time. -/
def Repo.list_all (r : Repo) (status : StatusFilter) (tag : Option String)
    (sort : SortField) : List Task :=
  let tasks := r.tasks.map Prod.snd
  let tasks := match status with
    | .all => tasks
    | .«open» => tasks.filter (fun t => t.status == Status.«open»)
    | .done => tasks.filter (fun t => t.status == Status.done)
  let tasks := match tag with
    | none => tasks
    | some tg =>
      let tag_lower := lowerChars tg.toList
      tasks.filter (fun t => t.tags.any (fun x => lowerChars x.toList == tag_lower))
  sort_tasks tasks sort

/-! ### Service layer (`services.py`)

Each use case takes the repository state and returns the result paired
with the state at the moment the call returns or raises; the `now`
argument stands for `utc_now()`. -/

/-- `TodoService.add_task`: validate title, due date, priority and tags in
that order (failing fast before touching the repository), then delegate to
`Repo.add`. -/
def TodoService.add_task (r : Repo) (now : Nat) (title : String)
    (due : Option String) (priority : Option String) (tags : Option String) :
    Except Err Task × Repo :=
  match validate_title title with
  | .error e => (.error e, r)
  | .ok validated_title =>
    match parse_due_date due with
    | .error e => (.error e, r)
    | .ok due_date =>
      match validate_priority priority with
      | .error e => (.error e, r)
      | .ok validated_priority =>
        let parsed_tags := parse_tags tags
        let (task, r') := Repo.add r validated_title now due_date validated_priority (some parsed_tags)
        (.ok task, r')

/-- `TodoService.get_task`. -/
def TodoService.get_task (r : Repo) (task_id : Nat) : Except Err Task :=
  Repo.get r task_id

/-- `TodoService.list_tasks`. -/
def TodoService.list_tasks (r : Repo) (status : StatusFilter)
    (tag : Option String) (sort : SortField) : List Task :=
  Repo.list_all r status tag sort

/-- `TodoService.mark_done`: `self._repo.update(task_id, status="done")`. -/
def TodoService.mark_done (r : Repo) (task_id : Nat) : Except Err Task × Repo :=
  Repo.update r task_id none (some .done) none none none

/-- `TodoService.reopen_task`: `self._repo.update(task_id, status="open")`. -/
def TodoService.reopen_task (r : Repo) (task_id : Nat) : Except Err Task × Repo :=
  Repo.update r task_id none (some .«open») none none none

/-- `TodoService.update_task`: validate each provided raw field (title,
due, priority, tags in that order, failing fast), propagating the
three-valued not-provided / clear / set distinction to `Repo.update`. -/
def TodoService.update_task (r : Repo) (task_id : Nat) (title : Option String)
    (due : Option (Option String)) (priority : Option (Option String))
    (tags : Option (Option String)) : Except Err Task × Repo :=
  match (match title with | some t => Except.map some (validate_title t) | none => .ok none) with
  | .error e => (.error e, r)
  | .ok validated_title =>
    match (match due with | some d => Except.map some (parse_due_date d) | none => .ok none) with
    | .error e => (.error e, r)
    | .ok due_date =>
      match (match priority with | some p => Except.map some (validate_priority p) | none => .ok none) with
      | .error e => (.error e, r)
      | .ok validated_priority =>
        let parsed_tags : Option (Option (List String)) :=
          match tags with | some ts => some (some (parse_tags ts)) | none => none
        Repo.update r task_id validated_title none due_date validated_priority parsed_tags

/-- `TodoService.delete_task`. -/
def TodoService.delete_task (r : Repo) (task_id : Nat) : Except Err Unit × Repo :=
  Repo.delete r task_id

/-- `TodoService.clear_done`. -/
def TodoService.clear_done (r : Repo) : Nat × Repo :=
  Repo.clear_done r

/-! ### Trace semantics over repository operations -/

/-- A repository mutation, for reasoning over arbitrary operation
sequences. -/
inductive Op where
  | create (title : String) (created_at : Nat) (due_date : Option Date)
      (priority : Option Priority) (tags : Option (List String))
  | update (task_id : Nat) (title : Option String) (status : Option Status)
      (due_date : Option (Option Date)) (priority : Option (Option Priority))
      (tags : Option (Option (List String)))
  | delete (task_id : Nat)
  | clearDone
deriving DecidableEq

/-- Apply one operation to the repository state (a raised `NotFound`
propagates to the caller and leaves the state as it was). -/
def step (r : Repo) : Op → Repo
  | .create title now due prio tags => (Repo.add r title now due prio tags).2
  | .update i titl st due prio tags => (Repo.update r i titl st due prio tags).2
  | .delete i => (Repo.delete r i).2
  | .clearDone => (Repo.clear_done r).2

/-- Run a sequence of operations. -/
def run (r : Repo) : List Op → Repo
  | [] => r
  | op :: ops => run (step r op) ops

/-- Whether an operation is a `create`. -/
def isCreate : Op → Bool
  | .create _ _ _ _ _ => true
  | _ => false

/-- The ids handed out by the `create` calls of a trace, in call order. -/
def assignedIds (r : Repo) : List Op → List Nat
  | [] => []
  | op :: ops =>
    if isCreate op then r.next_id :: assignedIds (step r op) ops
    else assignedIds (step r op) ops

/-- Repository well-formedness: every stored task is keyed by its own id,
keys are pairwise distinct, and every key is below the next-id counter. -/
def WF (r : Repo) : Prop :=
  (∀ p ∈ r.tasks, p.2.id = p.1) ∧ kNodup r.tasks ∧ (∀ p ∈ r.tasks, p.1 < r.next_id)

instance {α : Type} [DecidableEq α] (l : List (Nat × α)) : Decidable (kNodup l) :=
  List.nodupDecidable _

instance (r : Repo) : Decidable (WF r) :=
  instDecidableAnd

/-! ### Object-identity model of the repository

Python `Task` instances are mutable heap objects; the repository dict maps
ids to references to them, and `get` / `list_all` hand those references to
the caller.  To reason about what a caller-side attribute write does, this
finer model makes the heap explicit: `heap` maps object addresses to the
current field record, `tasks` maps task ids to addresses. -/

structure ObjRepo where
  heap : List (Nat × Task)
  tasks : List (Nat × Nat)
  next_id : Nat
  next_addr : Nat
deriving DecidableEq

/-- Startup state of the object-level model. -/
def ObjRepo.empty : ObjRepo := ⟨[], [], 1, 0⟩

/-- `MemoryTaskRepository.add` at object level: allocate the record,
store its address under the new id, return the reference the caller gets. -/
def ObjRepo.add (r : ObjRepo) (title : String) (created_at : Nat)
    (due_date : Option Date) (priority : Option Priority)
    (tags : Option (List String)) : Nat × ObjRepo :=
  let task : Task :=
    { id := r.next_id, title := title, status := .«open», created_at := created_at,
      due_date := due_date, priority := priority, tags := tags.getD [] }
  let a := r.next_addr
  (a, { heap := keySet r.heap a task, tasks := keySet r.tasks r.next_id a,
        next_id := r.next_id + 1, next_addr := r.next_addr + 1 })

/-- `MemoryTaskRepository.get` at object level: the caller receives the
stored reference itself, not a copy. -/
def ObjRepo.get (r : ObjRepo) (task_id : Nat) : Except Err Nat :=
  match keyLookup r.tasks task_id with
  | none => .error (.notFound task_id)
  | some a => .ok a

/-- `list(self._tasks.values())` at object level: a fresh list whose
elements are the stored references, in dict order. -/
def ObjRepo.list_refs (r : ObjRepo) : List Nat :=
  r.tasks.map Prod.snd

/-- A caller-side `task.title = s` executed on a reference the repository
handed out: a heap write at that address. -/
def ObjRepo.writeTitle (r : ObjRepo) (a : Nat) (s : String) : ObjRepo :=
  { r with heap := r.heap.map (fun p => if p.1 = a then (p.1, { p.2 with title := s }) else p) }

/-- The task record a subsequent `get(task_id)` would observe: dereference
the stored address in the current heap. -/
def ObjRepo.observe (r : ObjRepo) (task_id : Nat) : Option Task :=
  match keyLookup r.tasks task_id with
  | none => none
  | some a => keyLookup r.heap a

/-! ### Spec-side order and format predicates

These definitions follow the words of the specification (not the source);
the theorems below compare the source-derived functions against them. -/

/-- Spec wording for the `due` sort: a dated task precedes an undated one;
two dated tasks are ordered by ascending date with ascending id breaking
ties; two undated tasks are ordered by ascending id. -/
def specDueOrder (t u : Task) : Bool :=
  match t.due_date, u.due_date with
  | some _, none => true
  | none, some _ => false
  | some a, some b => Date.ltb a b || (a == b && t.id < u.id)
  | none, none => t.id < u.id

/-- Spec wording for the priority ranks: high, then med, then low, then no
priority. -/
def specPrioRank : Option Priority → Nat
  | some .high => 0
  | some .med => 1
  | some .low => 2
  | none => 3

/-- Spec wording for the `priority` sort: ordered by rank, ascending id
within equal priority. -/
def specPrioOrder (t u : Task) : Bool :=
  specPrioRank t.priority < specPrioRank u.priority ||
    (specPrioRank t.priority == specPrioRank u.priority && t.id < u.id)

/-- Spec wording for "an ISO calendar date of the form YYYY-MM-DD denoting
a real calendar date": ten characters, four digits, hyphen, two digits,
hyphen, two digits, whose denoted numbers form a real proleptic Gregorian
calendar date (year at least 1; a four-digit year is at most 9999). -/
def isRealCalendarDate (y m d : Nat) : Bool :=
  1 ≤ y && y ≤ 9999 && 1 ≤ m && m ≤ 12 && 1 ≤ d && d ≤ daysInMonth y m

/-- The `YYYY-MM-DD` shape check on the character list. -/
def isISODateFormat : List Char → Bool
  | [y1, y2, y3, y4, h1, m1, m2, h2, d1, d2] =>
    y1.isDigit && y2.isDigit && y3.isDigit && y4.isDigit &&
      h1 = '-' && h2 = '-' && m1.isDigit && m2.isDigit && d1.isDigit && d2.isDigit &&
      isRealCalendarDate
        (1000 * digitVal y1 + 100 * digitVal y2 + 10 * digitVal y3 + digitVal y4)
        (10 * digitVal m1 + digitVal m2)
        (10 * digitVal d1 + digitVal d2)
  | _ => false

/-- Spec-side predicate: the string is an ISO `YYYY-MM-DD` real calendar
date. -/
def isISOCalendarDate (s : String) : Bool :=
  isISODateFormat s.toList

/-! ### Concrete sample states for instantiating the theorems -/

/-- An open task with a due date. -/
def tSoon : Task := ⟨1, "Soon", .«open», 0, some ⟨2025, 1, 15⟩, none, []⟩

/-- A done task with a later due date, a priority and a tag. -/
def tLater : Task := ⟨2, "Later", .done, 1, some ⟨2025, 12, 31⟩, some .high, ["work"]⟩

/-- An open task without a due date. -/
def tNoDue : Task := ⟨3, "NoDue", .«open», 2, none, some .low, []⟩

/-- A well-formed three-task repository state. -/
def sampleRepo : Repo := ⟨[(1, tSoon), (2, tLater), (3, tNoDue)], 4⟩

/-- The object-level state after one `add("Buy milk")` on a fresh repository. -/
def sampleObjRepo : ObjRepo := (ObjRepo.add ObjRepo.empty "Buy milk" 0 none none none).2

/-! ### Lemmas about the dict model -/

theorem keyLookup_mem {α : Type} {l : List (Nat × α)} {k : Nat} {v : α}
    (h : keyLookup l k = some v) : (k, v) ∈ l := by
  induction l with
  | nil => simp [keyLookup] at h
  | cons q ps ih =>
    simp only [keyLookup] at h
    by_cases hq : q.1 = k
    · rw [if_pos hq] at h
      injection h with h
      have hq2 : q = (k, v) := by
        obtain ⟨q1, q2⟩ := q
        simp only at hq h
        rw [hq, h]
      rw [← hq2]
      exact List.mem_cons_self q ps
    · rw [if_neg hq] at h
      exact List.mem_cons_of_mem _ (ih h)

theorem keyContains_iff_mem {α : Type} {l : List (Nat × α)} {k : Nat} :
    keyContains l k = true ↔ k ∈ l.map Prod.fst := by
  induction l with
  | nil => simp [keyContains]
  | cons q ps ih =>
    simp only [keyContains, Bool.or_eq_true, beq_iff_eq, List.map_cons, List.mem_cons, ih]
    constructor
    · rintro (h | h)
      · exact Or.inl h.symm
      · exact Or.inr h
    · rintro (h | h)
      · exact Or.inl h.symm
      · exact Or.inr h

theorem keyContains_of_lookup {α : Type} {l : List (Nat × α)} {k : Nat} {v : α}
    (h : keyLookup l k = some v) : keyContains l k = true := by
  induction l with
  | nil => simp [keyLookup] at h
  | cons q ps ih =>
    simp only [keyLookup] at h
    by_cases hq : q.1 = k
    · simp [keyContains, hq]
    · rw [if_neg hq] at h
      simp [keyContains, hq, ih h]

theorem keyLookup_isSome_of_contains {α : Type} {l : List (Nat × α)} {k : Nat}
    (h : keyContains l k = true) : (keyLookup l k).isSome = true := by
  induction l with
  | nil => simp [keyContains] at h
  | cons q ps ih =>
    simp only [keyContains, Bool.or_eq_true, beq_iff_eq] at h
    simp only [keyLookup]
    by_cases hq : q.1 = k
    · rw [if_pos hq]; rfl
    · rw [if_neg hq]
      rcases h with h | h
      · exact absurd h hq
      · exact ih h

theorem keyLookup_eq_none {α : Type} {l : List (Nat × α)} {k : Nat}
    (h : keyContains l k = false) : keyLookup l k = none := by
  cases hv : keyLookup l k with
  | none => rfl
  | some v => rw [keyContains_of_lookup hv] at h; cases h

theorem map_keyReplace_id {α : Type} {ps : List (Nat × α)} {k : Nat} {v : α}
    (h : ∀ p ∈ ps, p.1 ≠ k) :
    ps.map (fun p => if p.1 = k then (k, v) else p) = ps := by
  induction ps with
  | nil => rfl
  | cons q qs ih =>
    simp only [List.map_cons]
    rw [if_neg (h q (List.mem_cons_self q qs)), ih (fun p hp => h p (List.mem_cons_of_mem q hp))]

theorem keyLookup_mapReplace_same {α : Type} (l : List (Nat × α)) (k : Nat) (v : α) :
    keyLookup (l.map (fun p => if p.1 = k then (k, v) else p)) k =
      (keyLookup l k).map (fun _ => v) := by
  induction l with
  | nil => rfl
  | cons q ps ih =>
    by_cases hq : q.1 = k
    · simp [List.map_cons, if_pos hq, keyLookup, hq]
    · simp only [List.map_cons, if_neg hq, keyLookup, if_neg hq]
      exact ih

theorem keyLookup_mapReplace_ne {α : Type} (l : List (Nat × α)) (k j : Nat) (v : α)
    (hjk : j ≠ k) :
    keyLookup (l.map (fun p => if p.1 = k then (k, v) else p)) j = keyLookup l j := by
  induction l with
  | nil => rfl
  | cons q ps ih =>
    by_cases hq : q.1 = k
    · have hkj : k ≠ j := Ne.symm hjk
      have hqj : q.1 ≠ j := fun h => hkj (hq ▸ h)
      simp only [List.map_cons, if_pos hq, keyLookup, if_neg hkj, if_neg hqj]
      exact ih
    · by_cases hqj : q.1 = j
      · simp only [List.map_cons, if_neg hq, keyLookup, if_pos hqj]
      · simp only [List.map_cons, if_neg hq, keyLookup, if_neg hqj]
        exact ih

theorem keyLookup_append_same {α : Type} (l : List (Nat × α)) (k : Nat) (v : α)
    (h : keyContains l k = false) : keyLookup (l ++ [(k, v)]) k = some v := by
  induction l with
  | nil => simp [keyLookup]
  | cons q ps ih =>
    simp only [keyContains, Bool.or_eq_false_iff, beq_eq_false_iff_ne, ne_eq] at h
    simp only [List.cons_append, keyLookup, if_neg h.1]
    exact ih h.2

theorem keyLookup_append_ne {α : Type} (l : List (Nat × α)) (k j : Nat) (v : α)
    (hjk : j ≠ k) : keyLookup (l ++ [(k, v)]) j = keyLookup l j := by
  induction l with
  | nil => simp [keyLookup, if_neg (Ne.symm hjk)]
  | cons q ps ih =>
    by_cases hq : q.1 = j
    · simp only [List.cons_append, keyLookup, if_pos hq]
    · simp only [List.cons_append, keyLookup, if_neg hq]
      exact ih

theorem keyLookup_keySet_same {α : Type} (l : List (Nat × α)) (k : Nat) (v : α) :
    keyLookup (keySet l k v) k = some v := by
  by_cases hc : keyContains l k = true
  · rw [keySet, if_pos hc, keyLookup_mapReplace_same]
    have := keyLookup_isSome_of_contains hc
    cases hv : keyLookup l k with
    | none => rw [hv] at this; cases this
    | some w => rfl
  · rw [keySet, if_neg hc, keyLookup_append_same l k v (by simpa using hc)]

theorem keyLookup_keySet_ne {α : Type} (l : List (Nat × α)) (k j : Nat) (v : α)
    (hjk : j ≠ k) : keyLookup (keySet l k v) j = keyLookup l j := by
  by_cases hc : keyContains l k = true
  · rw [keySet, if_pos hc, keyLookup_mapReplace_ne l k j v hjk]
  · rw [keySet, if_neg hc, keyLookup_append_ne l k j v hjk]

theorem keySet_self {α : Type} {l : List (Nat × α)} {k : Nat} {v : α}
    (hnd : kNodup l) (h : keyLookup l k = some v) : keySet l k v = l := by
  rw [keySet, if_pos (keyContains_of_lookup h)]
  induction l with
  | nil => simp [keyLookup] at h
  | cons q ps ih =>
    simp only [keyLookup] at h
    have hnd1 : q.1 ∉ ps.map Prod.fst := (List.nodup_cons.mp hnd).1
    have hnd2 : kNodup ps := (List.nodup_cons.mp hnd).2
    by_cases hq : q.1 = k
    · rw [if_pos hq] at h
      injection h with h
      have hps : ∀ p ∈ ps, p.1 ≠ k := by
        intro p hp hpk
        have hm : p.1 ∈ ps.map Prod.fst := List.mem_map_of_mem Prod.fst hp
        rw [hpk, ← hq] at hm
        exact hnd1 hm
      simp only [List.map_cons, if_pos hq, map_keyReplace_id hps]
      rw [← hq, ← h]
    · rw [if_neg hq] at h
      simp only [List.map_cons, if_neg hq]
      rw [ih hnd2 h]

theorem map_fst_mapReplace {α : Type} (l : List (Nat × α)) (k : Nat) (v : α) :
    (l.map (fun p => if p.1 = k then (k, v) else p)).map Prod.fst = l.map Prod.fst := by
  induction l with
  | nil => rfl
  | cons q ps ih =>
    by_cases hq : q.1 = k
    · simp only [List.map_cons, if_pos hq, ih]
      rw [← hq]
    · simp only [List.map_cons, if_neg hq, ih]

theorem map_fst_keySet_contains {α : Type} {l : List (Nat × α)} {k : Nat} (v : α)
    (hc : keyContains l k = true) :
    (keySet l k v).map Prod.fst = l.map Prod.fst := by
  rw [keySet, if_pos hc]
  exact map_fst_mapReplace l k v

theorem map_fst_keySet_new {α : Type} {l : List (Nat × α)} {k : Nat} (v : α)
    (hc : keyContains l k = false) :
    (keySet l k v).map Prod.fst = l.map Prod.fst ++ [k] := by
  simp [keySet, hc]

theorem kNodup_keySet {α : Type} {l : List (Nat × α)} {k : Nat} {v : α}
    (hnd : kNodup l) : kNodup (keySet l k v) := by
  by_cases hc : keyContains l k = true
  · unfold kNodup
    rw [map_fst_keySet_contains v hc]
    exact hnd
  · unfold kNodup
    rw [map_fst_keySet_new v (by simpa using hc)]
    simp only [List.nodup_append, List.nodup_cons, List.not_mem_nil, not_false_iff,
      List.nodup_nil, and_true, true_and]
    refine ⟨hnd, ?_⟩
    intro a ha hb
    simp only [List.mem_singleton] at hb
    subst hb
    rw [keyContains_iff_mem.mpr ha] at hc
    exact hc rfl

theorem mem_keySet {α : Type} {l : List (Nat × α)} {k : Nat} {v : α} {p : Nat × α}
    (h : p ∈ keySet l k v) : p = (k, v) ∨ p ∈ l := by
  by_cases hc : keyContains l k = true
  · rw [keySet, if_pos hc] at h
    obtain ⟨q, hq, hqe⟩ := List.mem_map.mp h
    by_cases hqk : q.1 = k
    · rw [if_pos hqk] at hqe
      exact Or.inl hqe.symm
    · rw [if_neg hqk] at hqe
      exact Or.inr (hqe ▸ hq)
  · rw [keySet, if_neg hc] at h
    rcases List.mem_append.mp h with h | h
    · exact Or.inr h
    · exact Or.inl (List.mem_singleton.mp h)

/-! ### Lemmas about stable insertion sort -/

theorem mem_insertLe {α : Type} {le : α → α → Bool} {a b : α} {l : List α}
    (h : b ∈ insertLe le a l) : b = a ∨ b ∈ l := by
  induction l with
  | nil => simpa [insertLe] using h
  | cons c cs ih =>
    simp only [insertLe] at h
    by_cases hc : le a c = true
    · rw [if_pos hc] at h
      rcases List.mem_cons.mp h with h | h
      · exact Or.inl h
      · exact Or.inr h
    · rw [if_neg hc] at h
      rcases List.mem_cons.mp h with h | h
      · rw [h]
        exact Or.inr (List.mem_cons_self c cs)
      · rcases ih h with h | h
        · exact Or.inl h
        · exact Or.inr (List.mem_cons_of_mem c h)

theorem insertLe_perm {α : Type} (le : α → α → Bool) (a : α) (l : List α) :
    (insertLe le a l).Perm (a :: l) := by
  induction l with
  | nil => exact List.Perm.refl _
  | cons c cs ih =>
    simp only [insertLe]
    by_cases hc : le a c = true
    · rw [if_pos hc]
    · rw [if_neg hc]
      exact (ih.cons c).trans (List.Perm.swap a c cs)

theorem sortBy_perm {α : Type} (le : α → α → Bool) (l : List α) :
    (sortBy le l).Perm l := by
  induction l with
  | nil => exact List.Perm.refl _
  | cons a as ih =>
    exact (insertLe_perm le a (sortBy le as)).trans (ih.cons a)

theorem pairwise_insertLe {α : Type} {le : α → α → Bool}
    (htrans : ∀ a b c, le a b = true → le b c = true → le a c = true)
    (htotal : ∀ a b, le a b = true ∨ le b a = true)
    {a : α} {l : List α} (h : List.Pairwise (fun x y => le x y = true) l) :
    List.Pairwise (fun x y => le x y = true) (insertLe le a l) := by
  induction l with
  | nil => simp [insertLe]
  | cons c cs ih =>
    obtain ⟨hc1, hcs⟩ := List.pairwise_cons.mp h
    simp only [insertLe]
    by_cases hc : le a c = true
    · rw [if_pos hc]
      refine List.pairwise_cons.mpr ⟨?_, h⟩
      intro x hx
      rcases List.mem_cons.mp hx with hx | hx
      · rw [hx]; exact hc
      · exact htrans a c x hc (hc1 x hx)
    · rw [if_neg hc]
      refine List.pairwise_cons.mpr ⟨?_, ih hcs⟩
      intro x hx
      rcases mem_insertLe hx with hx | hx
      · rw [hx]
        rcases htotal a c with h1 | h1
        · exact absurd h1 hc
        · exact h1
      · exact hc1 x hx

theorem pairwise_sortBy {α : Type} {le : α → α → Bool}
    (htrans : ∀ a b c, le a b = true → le b c = true → le a c = true)
    (htotal : ∀ a b, le a b = true ∨ le b a = true) (l : List α) :
    List.Pairwise (fun x y => le x y = true) (sortBy le l) := by
  induction l with
  | nil => simp [sortBy]
  | cons a as ih => exact pairwise_insertLe htrans htotal ih

/-! ### Properties of the sort key comparisons -/

theorem Date.eq_iff {a b : Date} :
    a = b ↔ a.year = b.year ∧ a.month = b.month ∧ a.day = b.day := by
  constructor
  · intro h
    rw [h]
    exact ⟨rfl, rfl, rfl⟩
  · rintro ⟨h1, h2, h3⟩
    cases a
    cases b
    simp_all

theorem dueLeB_trans (a b c : Task)
    (h1 : dueLeB a b = true) (h2 : dueLeB b c = true) : dueLeB a c = true := by
  simp only [dueLeB, Date.ltb, Date.eq_iff, Bool.or_eq_true, Bool.and_eq_true,
    decide_eq_true_eq, beq_iff_eq] at h1 h2 ⊢
  omega

theorem dueLeB_total (a b : Task) : dueLeB a b = true ∨ dueLeB b a = true := by
  simp only [dueLeB, Date.ltb, Date.eq_iff, Bool.or_eq_true, Bool.and_eq_true,
    decide_eq_true_eq, beq_iff_eq]
  omega

theorem prioLeB_trans (a b c : Task)
    (h1 : prioLeB a b = true) (h2 : prioLeB b c = true) : prioLeB a c = true := by
  simp only [prioLeB, Bool.or_eq_true, Bool.and_eq_true, decide_eq_true_eq,
    beq_iff_eq] at h1 h2 ⊢
  omega

theorem prioLeB_total (a b : Task) : prioLeB a b = true ∨ prioLeB b a = true := by
  simp only [prioLeB, Bool.or_eq_true, Bool.and_eq_true, decide_eq_true_eq, beq_iff_eq]
  omega

theorem dueLeB_strict (a b : Task) (hle : dueLeB a b = true) (hne : a.id ≠ b.id) :
    specDueOrder a b = true := by
  cases hda : a.due_date with
  | none =>
    cases hdb : b.due_date with
    | none =>
      simp only [dueLeB, dueGroup, dueKeyDate, hda, hdb, Option.isSome_none,
        Option.getD_none, Bool.or_eq_true, Bool.and_eq_true, decide_eq_true_eq,
        beq_iff_eq, Date.ltb, Date.eq_iff] at hle
      simp only [specDueOrder, hda, hdb, decide_eq_true_eq]
      omega
    | some db =>
      exfalso
      simp [dueLeB, dueGroup, dueKeyDate, hda, hdb] at hle
  | some da =>
    cases hdb : b.due_date with
    | none => simp [specDueOrder, hda, hdb]
    | some db =>
      simp only [dueLeB, dueGroup, dueKeyDate, hda, hdb, Option.isSome_some,
        Option.getD_some, Bool.or_eq_true, Bool.and_eq_true, decide_eq_true_eq,
        beq_iff_eq, Date.ltb, Date.eq_iff] at hle
      simp only [specDueOrder, hda, hdb, Bool.or_eq_true, Bool.and_eq_true,
        decide_eq_true_eq, beq_iff_eq, Date.ltb, Date.eq_iff]
      omega

theorem prioLeB_strict (a b : Task) (hle : prioLeB a b = true) (hne : a.id ≠ b.id) :
    specPrioOrder a b = true := by
  have hrank : ∀ p, specPrioRank p = priority_order p := by
    intro p
    cases p with
    | none => rfl
    | some q => cases q <;> rfl
  simp only [prioLeB, Bool.or_eq_true, Bool.and_eq_true, decide_eq_true_eq,
    beq_iff_eq] at hle
  simp only [specPrioOrder, hrank, Bool.or_eq_true, Bool.and_eq_true,
    decide_eq_true_eq, beq_iff_eq]
  omega

/-! ### Date-format equivalence -/

theorem digitVal_lt_ten (c : Char) (h : c.isDigit = true) : digitVal c < 10 := by
  simp only [Char.isDigit, Bool.and_eq_true, decide_eq_true_eq] at h
  obtain ⟨h1, h2⟩ := h
  have h1n : ('0' : Char).toNat ≤ c.toNat := h1
  have h2n : c.toNat ≤ ('9' : Char).toNat := h2
  have e0 : ('0' : Char).toNat = 48 := rfl
  have e9 : ('9' : Char).toNat = 57 := rfl
  simp only [digitVal, e0]
  omega

theorem fromISOChars_isSome_eq (l : List Char) :
    (fromISOChars l).isSome = isISODateFormat l := by
  rcases l with _ | ⟨c1, _ | ⟨c2, _ | ⟨c3, _ | ⟨c4, _ | ⟨c5, _ | ⟨c6, _ | ⟨c7, _ | ⟨c8, _ | ⟨c9, _ | ⟨c10, _ | ⟨c11, rest⟩⟩⟩⟩⟩⟩⟩⟩⟩⟩⟩
  all_goals try rfl
  simp only [fromISOChars, isISODateFormat, isRealCalendarDate]
  rw [Bool.eq_iff_iff]
  constructor
  · intro h
    split at h
    case isTrue hP =>
      split at h
      case isTrue hQ =>
        simp only [Bool.and_eq_true, decide_eq_true_eq, and_assoc] at hP hQ ⊢
        obtain ⟨hp1, hp2, hp3, hp4, hp5, hp6, hp7, hp8, hp9, hp10⟩ := hP
        have b1 := digitVal_lt_ten c1 hp1
        have b2 := digitVal_lt_ten c2 hp2
        have b3 := digitVal_lt_ten c3 hp3
        have b4 := digitVal_lt_ten c4 hp4
        refine ⟨hp1, hp2, hp3, hp4, hp5, hp8, hp6, hp7, hp9, hp10, ?_, ?_, ?_, ?_, ?_, ?_⟩ <;> omega
      case isFalse hQ => simp at h
    case isFalse hP => simp at h
  · intro h
    simp only [Bool.and_eq_true, decide_eq_true_eq, and_assoc] at h
    obtain ⟨h1, h2, h3, h4, h5, h8, h6, h7, h9, h10, hy1, hy2, hm1, hm2, hd1, hd2⟩ := h
    rw [if_pos, if_pos]
    · rfl
    · simp only [Bool.and_eq_true, decide_eq_true_eq, and_assoc]
      exact ⟨hy1, hm1, hm2, hd1, hd2⟩
    · simp only [Bool.and_eq_true, decide_eq_true_eq, and_assoc]
      exact ⟨h1, h2, h3, h4, h5, h6, h7, h8, h9, h10⟩

/-! ### Field-application and step lemmas -/

theorem applyFields_id (t : Task) (a : Option String) (b : Option Status)
    (c : Option (Option Date)) (d : Option (Option Priority))
    (e : Option (Option (List String))) :
    (applyFields t a b c d e).id = t.id := by
  cases a <;> cases b <;> cases c <;> cases d <;> cases e <;> rfl

theorem applyFields_none (t : Task) : applyFields t none none none none none = t := rfl

theorem applyFields_clear_due (t : Task) :
    applyFields t none none (some none) none none = { t with due_date := none } := rfl

theorem applyFields_status (t : Task) (s : Status) :
    applyFields t none (some s) none none none = { t with status := s } := rfl

theorem step_next_id (r : Repo) (op : Op) (h : isCreate op = false) :
    (step r op).next_id = r.next_id := by
  cases op with
  | create titl now due prio tags => simp [isCreate] at h
  | update i titl st due prio tags =>
    simp only [step, Repo.update]
    cases Repo.get r i with
    | error e => rfl
    | ok t => rfl
  | delete i =>
    simp only [step, Repo.delete]
    by_cases hc : keyContains r.tasks i = true
    · rw [if_pos hc]
    · rw [if_neg hc]
  | clearDone => rfl

theorem step_create_next_id (r : Repo) (titl : String) (now : Nat)
    (due : Option Date) (prio : Option Priority) (tags : Option (List String)) :
    (step r (.create titl now due prio tags)).next_id = r.next_id + 1 := rfl

theorem assignedIds_eq (ops : List Op) :
    ∀ r : Repo, assignedIds r ops = List.range' r.next_id (ops.countP isCreate) := by
  induction ops with
  | nil => intro r; rfl
  | cons op ops ih =>
    intro r
    rw [List.countP_cons]
    simp only [assignedIds]
    by_cases hop : isCreate op = true
    · have hnext : (step r op).next_id = r.next_id + 1 := by
        cases op with
        | create titl now due prio tags => rfl
        | update i titl st due prio tags => simp [isCreate] at hop
        | delete i => simp [isCreate] at hop
        | clearDone => simp [isCreate] at hop
      rw [if_pos hop, ih, hnext, hop, if_pos rfl, List.range'_succ]
    · have hop' : isCreate op = false := by simpa using hop
      rw [if_neg hop, ih, step_next_id r op hop', hop']
      simp

/-! ### Well-formedness preservation -/

theorem WF_empty : WF Repo.empty := by
  refine ⟨?_, ?_, ?_⟩ <;> simp [Repo.empty, kNodup]

theorem not_contains_of_bound {r : Repo} (h : ∀ p ∈ r.tasks, p.1 < r.next_id) :
    keyContains r.tasks r.next_id = false := by
  by_cases hc : keyContains r.tasks r.next_id = true
  · rw [keyContains_iff_mem] at hc
    obtain ⟨p, hp, hpk⟩ := List.mem_map.mp hc
    have := h p hp
    omega
  · simpa using hc

theorem add_appends {r : Repo} (h : WF r) (titl : String) (now : Nat)
    (due : Option Date) (prio : Option Priority) (tags : Option (List String)) :
    (Repo.add r titl now due prio tags).2.tasks
      = r.tasks ++ [(r.next_id, (Repo.add r titl now due prio tags).1)] := by
  obtain ⟨h1, h2, h3⟩ := h
  simp only [Repo.add, keySet, not_contains_of_bound h3, Bool.false_eq_true, if_neg,
    not_false_iff]

theorem WF_add (r : Repo) (titl : String) (now : Nat) (due : Option Date)
    (prio : Option Priority) (tags : Option (List String)) (h : WF r) :
    WF (Repo.add r titl now due prio tags).2 := by
  obtain ⟨h1, h2, h3⟩ := h
  have hnc := not_contains_of_bound h3
  refine ⟨?_, ?_, ?_⟩
  · intro p hp
    rw [add_appends ⟨h1, h2, h3⟩] at hp
    rcases List.mem_append.mp hp with hp | hp
    · exact h1 p hp
    · rw [List.mem_singleton] at hp
      rw [hp]
      rfl
  · exact kNodup_keySet h2
  · intro p hp
    rw [add_appends ⟨h1, h2, h3⟩] at hp
    simp only [Repo.add]
    rcases List.mem_append.mp hp with hp | hp
    · have := h3 p hp
      omega
    · rw [List.mem_singleton] at hp
      rw [hp]
      omega

theorem get_ok_lookup {r : Repo} {i : Nat} {t : Task}
    (hg : Repo.get r i = .ok t) : keyLookup r.tasks i = some t := by
  simp only [Repo.get] at hg
  cases hl : keyLookup r.tasks i with
  | none => rw [hl] at hg; cases hg
  | some t0 => rw [hl] at hg; injection hg with hg; rw [hg]

theorem get_of_lookup {r : Repo} {i : Nat} {t : Task}
    (hl : keyLookup r.tasks i = some t) : Repo.get r i = .ok t := by
  simp [Repo.get, hl]

theorem WF_update (r : Repo) (i : Nat) (titl : Option String) (st : Option Status)
    (due : Option (Option Date)) (prio : Option (Option Priority))
    (tags : Option (Option (List String))) (h : WF r) :
    WF (Repo.update r i titl st due prio tags).2 := by
  obtain ⟨h1, h2, h3⟩ := h
  simp only [Repo.update]
  cases hg : Repo.get r i with
  | error e => exact ⟨h1, h2, h3⟩
  | ok t =>
    have hl : keyLookup r.tasks i = some t := get_ok_lookup hg
    have hmem : (i, t) ∈ r.tasks := keyLookup_mem hl
    have hti : t.id = i := h1 (i, t) hmem
    refine ⟨?_, kNodup_keySet h2, ?_⟩
    · intro p hp
      rcases mem_keySet hp with hp | hp
      · rw [hp]
        simp only [applyFields_id]
        exact hti
      · exact h1 p hp
    · intro p hp
      rcases mem_keySet hp with hp | hp
      · rw [hp]
        exact h3 (i, t) hmem
      · exact h3 p hp

theorem WF_filter (r : Repo) (f : Nat × Task → Bool) (h : WF r) :
    WF { r with tasks := r.tasks.filter f } := by
  obtain ⟨h1, h2, h3⟩ := h
  refine ⟨?_, ?_, ?_⟩
  · intro p hp
    exact h1 p (List.mem_of_mem_filter hp)
  · exact ((List.filter_sublist r.tasks).map Prod.fst).nodup h2
  · intro p hp
    exact h3 p (List.mem_of_mem_filter hp)

theorem WF_step (r : Repo) (op : Op) (h : WF r) : WF (step r op) := by
  cases op with
  | create titl now due prio tags => exact WF_add r titl now due prio tags h
  | update i titl st due prio tags => exact WF_update r i titl st due prio tags h
  | delete i =>
    simp only [step, Repo.delete]
    by_cases hc : keyContains r.tasks i = true
    · rw [if_pos hc]
      exact WF_filter r _ h
    · rw [if_neg hc]
      exact h
  | clearDone => exact WF_filter r _ h

theorem WF_run (ops : List Op) : ∀ r : Repo, WF r → WF (run r ops) := by
  induction ops with
  | nil => intro r h; exact h
  | cons op ops ih => intro r h; exact ih (step r op) (WF_step r op h)


/-! ### Claim theorems -/

/-- C1: three-valued update semantics.  For an existing id, a service
`update_task` with no field provided returns the stored task and leaves
the repository exactly as it was; an `update_task` explicitly clearing the
due date (due provided as absent) stores `{ t with due_date := none }` —
every other attribute, in particular priority and tags, unchanged — and
touches no other id. -/
theorem update_three_valued (r : Repo) (i : Nat) (t : Task)
    (hnd : kNodup r.tasks) (hl : keyLookup r.tasks i = some t) :
    TodoService.update_task r i none none none none = (.ok t, r)
    ∧ TodoService.update_task r i none (some none) none none
        = (.ok { t with due_date := none },
           { r with tasks := keySet r.tasks i { t with due_date := none } })
    ∧ keyLookup (keySet r.tasks i { t with due_date := none }) i
        = some { t with due_date := none }
    ∧ (∀ j, j ≠ i → keyLookup (keySet r.tasks i { t with due_date := none }) j
        = keyLookup r.tasks j) := by
  refine ⟨?_, ?_, ?_, ?_⟩
  · show Repo.update r i none none none none none = (.ok t, r)
    simp only [Repo.update, get_of_lookup hl, applyFields_none, keySet_self hnd hl]
  · show Repo.update r i none none (some none) none none
        = (.ok { t with due_date := none },
           { r with tasks := keySet r.tasks i { t with due_date := none } })
    simp only [Repo.update, get_of_lookup hl, applyFields_clear_due]
  · exact keyLookup_keySet_same r.tasks i { t with due_date := none }
  · intro j hj
    exact keyLookup_keySet_ne r.tasks i j { t with due_date := none } hj

/-- C1 witness: the theorem instantiated on a concrete three-task
repository at id 1. -/
theorem update_three_valued_witness :
    TodoService.update_task sampleRepo 1 none none none none = (.ok tSoon, sampleRepo)
    ∧ TodoService.update_task sampleRepo 1 none (some none) none none
        = (.ok { tSoon with due_date := none },
           { sampleRepo with tasks := keySet sampleRepo.tasks 1 { tSoon with due_date := none } })
    ∧ keyLookup (keySet sampleRepo.tasks 1 { tSoon with due_date := none }) 1
        = some { tSoon with due_date := none }
    ∧ keyLookup (keySet sampleRepo.tasks 1 { tSoon with due_date := none }) 2
        = keyLookup sampleRepo.tasks 2 := by
  have h := update_three_valued sampleRepo 1 tSoon (by decide) (by decide)
  exact ⟨h.1, h.2.1, h.2.2.1, h.2.2.2 2 (by decide)⟩

/-- C5: `clear_done` returns the number of done tasks present before the
call, keeps exactly the non-done entries (same pair, same relative order),
removes every done entry, leaves the id counter alone, and a subsequent
`list(status=done)` with any tag filter and sort is empty. -/
theorem clear_done_spec (r : Repo) :
    (Repo.clear_done r).1
        = ((r.tasks.map Prod.snd).filter (fun t => t.status == Status.done)).length
    ∧ (∀ p ∈ r.tasks, p.2.status ≠ Status.done → p ∈ (Repo.clear_done r).2.tasks)
    ∧ (∀ p ∈ r.tasks, p.2.status = Status.done → p ∉ (Repo.clear_done r).2.tasks)
    ∧ (Repo.clear_done r).2.tasks.Sublist r.tasks
    ∧ (∀ tag sort, Repo.list_all (Repo.clear_done r).2 .done tag sort = [])
    ∧ (Repo.clear_done r).2.next_id = r.next_id := by
  refine ⟨?_, ?_, ?_, ?_, ?_, rfl⟩
  · show (r.tasks.filter (fun p => p.2.status == Status.done)).length = _
    rw [List.filter_map, List.length_map]
    rfl
  · intro p hp hs
    show p ∈ r.tasks.filter (fun p => p.2.status != Status.done)
    refine List.mem_filter.mpr ⟨hp, ?_⟩
    simp [hs]
  · intro p hp hs hmem
    have := (List.mem_filter.mp hmem).2
    rw [hs] at this
    simp at this
  · exact List.filter_sublist r.tasks
  · intro tag sort
    show Repo.list_all ⟨r.tasks.filter (fun p => p.2.status != Status.done), r.next_id⟩
        .done tag sort = []
    have hfil : ((r.tasks.filter (fun p => p.2.status != Status.done)).map
        Prod.snd).filter (fun t => t.status == Status.done) = [] := by
      rw [List.filter_map]
      have : (r.tasks.filter (fun p => p.2.status != Status.done)).filter
          ((fun t => t.status == Status.done) ∘ Prod.snd) = [] := by
        rw [List.filter_filter]
        apply List.filter_eq_nil_iff.mpr
        intro p hp
        simp only [Function.comp_apply, Bool.and_eq_true, beq_iff_eq, bne_iff_ne, ne_eq,
          not_and]
        intro h1 h2
        exact h2 h1
      rw [this]
      rfl
    simp only [Repo.list_all, hfil]
    cases tag with
    | none => cases sort <;> rfl
    | some tg => cases sort <;> rfl

/-- C5 witness: the theorem instantiated on a concrete repository holding
one done task (id 2) and two open ones. -/
theorem clear_done_spec_witness :
    (Repo.clear_done sampleRepo).1
        = ((sampleRepo.tasks.map Prod.snd).filter (fun t => t.status == Status.done)).length
    ∧ (1, tSoon) ∈ (Repo.clear_done sampleRepo).2.tasks
    ∧ (2, tLater) ∉ (Repo.clear_done sampleRepo).2.tasks
    ∧ Repo.list_all (Repo.clear_done sampleRepo).2 .done none .created = [] := by
  have h := clear_done_spec sampleRepo
  exact ⟨h.1, h.2.1 (1, tSoon) (by decide) (by decide),
    h.2.2.1 (2, tLater) (by decide) (by decide), h.2.2.2.2.1 none .created⟩

/-- C9: `mark_done` and `reopen_task` succeed on any existing id whatever
its current status, store the task with only the status changed, and are
idempotent: re-running the same transition returns the same task and
leaves the repository state fixed. -/
theorem status_transitions (r : Repo) (i : Nat) (t : Task)
    (hnd : kNodup r.tasks) (hl : keyLookup r.tasks i = some t) :
    TodoService.mark_done r i
        = (.ok { t with status := .done },
           { r with tasks := keySet r.tasks i { t with status := .done } })
    ∧ TodoService.mark_done
          { r with tasks := keySet r.tasks i { t with status := .done } } i
        = (.ok { t with status := .done },
           { r with tasks := keySet r.tasks i { t with status := .done } })
    ∧ TodoService.reopen_task r i
        = (.ok { t with status := .«open» },
           { r with tasks := keySet r.tasks i { t with status := .«open» } })
    ∧ TodoService.reopen_task
          { r with tasks := keySet r.tasks i { t with status := .«open» } } i
        = (.ok { t with status := .«open» },
           { r with tasks := keySet r.tasks i { t with status := .«open» } }) := by
  have hmk : ∀ (s : Status) (r' : Repo) (t' : Task), kNodup r'.tasks →
      keyLookup r'.tasks i = some t' →
      Repo.update r' i none (some s) none none none
        = (.ok { t' with status := s },
           { r' with tasks := keySet r'.tasks i { t' with status := s } }) := by
    intro s r' t' hnd' hl'
    simp only [Repo.update, get_of_lookup hl', applyFields_status]
  have hidem : ∀ (s : Status) (r' : Repo) (t' : Task), kNodup r'.tasks →
      keyLookup r'.tasks i = some t' → t'.status = s →
      Repo.update r' i none (some s) none none none = (.ok t', r') := by
    intro s r' t' hnd' hl' hst
    rw [hmk s r' t' hnd' hl']
    have h1 : { t' with status := s } = t' := by
      cases t'
      simp_all
    rw [h1, keySet_self hnd' hl']
  refine ⟨hmk .done r t hnd hl, ?_, hmk .«open» r t hnd hl, ?_⟩
  · exact hidem .done { r with tasks := keySet r.tasks i { t with status := .done } }
      { t with status := .done } (kNodup_keySet hnd)
      (keyLookup_keySet_same r.tasks i { t with status := .done }) rfl
  · exact hidem .«open» { r with tasks := keySet r.tasks i { t with status := .«open» } }
      { t with status := .«open» } (kNodup_keySet hnd)
      (keyLookup_keySet_same r.tasks i { t with status := .«open» }) rfl

/-- C9 witness: the theorem instantiated at id 3 (an open task) of a
concrete repository. -/
theorem status_transitions_witness :
    TodoService.mark_done sampleRepo 3
        = (.ok { tNoDue with status := .done },
           { sampleRepo with tasks := keySet sampleRepo.tasks 3 { tNoDue with status := .done } })
    ∧ TodoService.mark_done
          { sampleRepo with tasks := keySet sampleRepo.tasks 3 { tNoDue with status := .done } } 3
        = (.ok { tNoDue with status := .done },
           { sampleRepo with tasks := keySet sampleRepo.tasks 3 { tNoDue with status := .done } })
    ∧ TodoService.reopen_task sampleRepo 3
        = (.ok { tNoDue with status := .«open» },
           { sampleRepo with tasks := keySet sampleRepo.tasks 3 { tNoDue with status := .«open» } })
    ∧ TodoService.reopen_task
          { sampleRepo with tasks := keySet sampleRepo.tasks 3 { tNoDue with status := .«open» } } 3
        = (.ok { tNoDue with status := .«open» },
           { sampleRepo with tasks := keySet sampleRepo.tasks 3 { tNoDue with status := .«open» } }) :=
  status_transitions sampleRepo 3 tNoDue (by decide) (by decide)

/-- C2: over any sequence of repository operations started from the fresh
repository, the ids handed out by the successive `create` calls are
exactly `1, 2, 3, …` — they start at 1, advance by exactly one per create
call regardless of interleaved deletes, updates or clears, are strictly
increasing, and are never repeated. -/
theorem create_ids_monotonic (ops : List Op) :
    assignedIds Repo.empty ops
        = List.range' 1 (assignedIds Repo.empty ops).length
    ∧ (assignedIds Repo.empty ops).Pairwise (fun a b => a < b)
    ∧ (assignedIds Repo.empty ops).Nodup := by
  have h : assignedIds Repo.empty ops = List.range' 1 (ops.countP isCreate) :=
    assignedIds_eq ops Repo.empty
  refine ⟨?_, ?_, ?_⟩
  · rw [h, List.length_range']
  · rw [h]
    exact List.pairwise_lt_range' 1 _
  · rw [h]
    exact List.nodup_range' 1 _

/-- C10: starting from the empty repository, every reachable state is
well formed — each stored task is keyed by its own id, keys are pairwise
distinct, and every key is below the next-id counter — and on any
well-formed state `add` appends a brand-new entry under the fresh id,
never overwriting an existing task. -/
theorem repo_wf_invariant :
    (∀ ops : List Op, WF (run Repo.empty ops))
    ∧ (∀ r : Repo, WF r → ∀ titl now due prio tags,
        (Repo.add r titl now due prio tags).2.tasks
          = r.tasks ++ [(r.next_id, (Repo.add r titl now due prio tags).1)]) :=
  ⟨fun ops => WF_run ops Repo.empty WF_empty,
   fun _ h titl now due prio tags => add_appends h titl now due prio tags⟩

/-- C10 witness: the invariant after a concrete trace, and the appending
behaviour of `add` on a concrete well-formed state. -/
theorem repo_wf_invariant_witness :
    WF (run Repo.empty
      [.create "a" 0 none none none, .delete 1, .create "b" 1 none none none, .clearDone])
    ∧ WF sampleRepo
    ∧ (Repo.add sampleRepo "X" 5 none none none).2.tasks
        = sampleRepo.tasks ++ [(4, (Repo.add sampleRepo "X" 5 none none none).1)] :=
  ⟨repo_wf_invariant.1 _, by decide,
   repo_wf_invariant.2 sampleRepo (by decide) "X" 5 none none none⟩

/-- C6: with distinct task ids, `list(sort=due)` returns all stored tasks
(and nothing else), ordered so that every dated task precedes every
undated one, dated tasks ascend by due date with ascending id breaking
ties, and undated tasks ascend by id. -/
theorem list_due_sorted (r : Repo)
    (hnd : ((r.tasks.map Prod.snd).map Task.id).Nodup) :
    (Repo.list_all r .all none .due).Perm (r.tasks.map Prod.snd)
    ∧ List.Pairwise (fun t u => specDueOrder t u = true)
        (Repo.list_all r .all none .due) := by
  have hval : Repo.list_all r .all none .due = sortBy dueLeB (r.tasks.map Prod.snd) := rfl
  constructor
  · rw [hval]
    exact sortBy_perm dueLeB (r.tasks.map Prod.snd)
  · rw [hval]
    have h1 := pairwise_sortBy dueLeB_trans dueLeB_total (r.tasks.map Prod.snd)
    have hperm := sortBy_perm dueLeB (r.tasks.map Prod.snd)
    have hnd2 : ((sortBy dueLeB (r.tasks.map Prod.snd)).map Task.id).Nodup :=
      ((hperm.map Task.id).symm).nodup hnd
    have hpw : List.Pairwise (fun t u : Task => t.id ≠ u.id)
        (sortBy dueLeB (r.tasks.map Prod.snd)) := List.pairwise_map.mp hnd2
    exact (h1.and hpw).imp (fun hab => dueLeB_strict _ _ hab.1 hab.2)

/-- C6 witness: the theorem instantiated on a concrete repository holding
two dated tasks and one undated task. -/
theorem list_due_sorted_witness :
    (Repo.list_all sampleRepo .all none .due).Perm (sampleRepo.tasks.map Prod.snd)
    ∧ List.Pairwise (fun t u => specDueOrder t u = true)
        (Repo.list_all sampleRepo .all none .due) :=
  list_due_sorted sampleRepo (by decide)

/-- C7: with distinct task ids, `list(sort=priority)` returns all stored
tasks ordered high, then med, then low, then no priority, with ascending
id inside every equal-priority group. -/
theorem list_priority_sorted (r : Repo)
    (hnd : ((r.tasks.map Prod.snd).map Task.id).Nodup) :
    (Repo.list_all r .all none .priority).Perm (r.tasks.map Prod.snd)
    ∧ List.Pairwise (fun t u => specPrioOrder t u = true)
        (Repo.list_all r .all none .priority) := by
  have hval : Repo.list_all r .all none .priority
      = sortBy prioLeB (r.tasks.map Prod.snd) := rfl
  constructor
  · rw [hval]
    exact sortBy_perm prioLeB (r.tasks.map Prod.snd)
  · rw [hval]
    have h1 := pairwise_sortBy prioLeB_trans prioLeB_total (r.tasks.map Prod.snd)
    have hperm := sortBy_perm prioLeB (r.tasks.map Prod.snd)
    have hnd2 : ((sortBy prioLeB (r.tasks.map Prod.snd)).map Task.id).Nodup :=
      ((hperm.map Task.id).symm).nodup hnd
    have hpw : List.Pairwise (fun t u : Task => t.id ≠ u.id)
        (sortBy prioLeB (r.tasks.map Prod.snd)) := List.pairwise_map.mp hnd2
    exact (h1.and hpw).imp (fun hab => prioLeB_strict _ _ hab.1 hab.2)

/-- C7 witness: the theorem instantiated on a concrete repository with
high, low and absent priorities. -/
theorem list_priority_sorted_witness :
    (Repo.list_all sampleRepo .all none .priority).Perm (sampleRepo.tasks.map Prod.snd)
    ∧ List.Pairwise (fun t u => specPrioOrder t u = true)
        (Repo.list_all sampleRepo .all none .priority) :=
  list_priority_sorted sampleRepo (by decide)


theorem update_error_frame (r : Repo) (i : Nat) (a : Option String) (b : Option Status)
    (c : Option (Option Date)) (d : Option (Option Priority))
    (e2 : Option (Option (List String))) (e : Err)
    (h : (Repo.update r i a b c d e2).1 = .error e) :
    (Repo.update r i a b c d e2).2 = r := by
  simp only [Repo.update] at h ⊢
  cases hg : Repo.get r i with
  | error e3 => rfl
  | ok t =>
    rw [hg] at h
    simp at h

/-- C3: failure atomicity of the service layer.  Whenever `add_task`,
`update_task`, `mark_done`, `reopen_task` or `delete_task` raises
(`ValidationError` or `TaskNotFoundError`), the repository state returned
alongside the error — the state at the moment the exception propagates —
is exactly the state before the call: nothing added, removed or modified,
and the id counter not advanced. -/
theorem service_failure_atomic :
    (∀ (r : Repo) (now : Nat) (titl : String) (due prio tags : Option String) (e : Err),
      (TodoService.add_task r now titl due prio tags).1 = .error e →
      (TodoService.add_task r now titl due prio tags).2 = r)
    ∧ (∀ (r : Repo) (i : Nat) (titl : Option String)
        (due prio tags : Option (Option String)) (e : Err),
      (TodoService.update_task r i titl due prio tags).1 = .error e →
      (TodoService.update_task r i titl due prio tags).2 = r)
    ∧ (∀ (r : Repo) (i : Nat) (e : Err),
      (TodoService.mark_done r i).1 = .error e → (TodoService.mark_done r i).2 = r)
    ∧ (∀ (r : Repo) (i : Nat) (e : Err),
      (TodoService.reopen_task r i).1 = .error e → (TodoService.reopen_task r i).2 = r)
    ∧ (∀ (r : Repo) (i : Nat) (e : Err),
      (TodoService.delete_task r i).1 = .error e → (TodoService.delete_task r i).2 = r) := by
  refine ⟨?_, ?_, ?_, ?_, ?_⟩
  · intro r now titl due prio tags e h
    simp only [TodoService.add_task] at h ⊢
    cases hv : validate_title titl with
    | error e2 => rfl
    | ok vt =>
      rw [hv] at h
      cases hd : parse_due_date due with
      | error e2 => rfl
      | ok dd =>
        rw [hd] at h
        cases hp : validate_priority prio with
        | error e2 => rfl
        | ok vp =>
          rw [hp] at h
          simp [Repo.add] at h
  · intro r i titl due prio tags e h
    simp only [TodoService.update_task] at h ⊢
    split at h
    next e2 heq =>
      rfl
    next vt heq =>
      split at h
      next e3 heq2 =>
        rfl
      next dd heq2 =>
        split at h
        next e4 heq3 =>
          rfl
        next vp heq3 =>
          exact update_error_frame r i vt none dd vp _ e h
  · intro r i e h
    exact update_error_frame r i none (some .done) none none none e h
  · intro r i e h
    exact update_error_frame r i none (some .«open») none none none e h
  · intro r i e h
    simp only [TodoService.delete_task, Repo.delete] at h ⊢
    by_cases hc : keyContains r.tasks i = true
    · rw [if_pos hc] at h
      simp at h
    · rw [if_neg hc]

/-- C3 witness: each use case applied where it fails (empty title for
`add_task`, missing id 9 for the rest) on a concrete repository, which it
leaves untouched. -/
theorem service_failure_atomic_witness :
    (TodoService.add_task sampleRepo 7 "   " none none none).2 = sampleRepo
    ∧ (TodoService.update_task sampleRepo 9 none none none none).2 = sampleRepo
    ∧ (TodoService.mark_done sampleRepo 9).2 = sampleRepo
    ∧ (TodoService.reopen_task sampleRepo 9).2 = sampleRepo
    ∧ (TodoService.delete_task sampleRepo 9).2 = sampleRepo :=
  ⟨service_failure_atomic.1 sampleRepo 7 "   " none none none
      (.validation "Title cannot be empty") (by decide),
   service_failure_atomic.2.1 sampleRepo 9 none none none none (.notFound 9) (by decide),
   service_failure_atomic.2.2.1 sampleRepo 9 (.notFound 9) (by decide),
   service_failure_atomic.2.2.2.1 sampleRepo 9 (.notFound 9) (by decide),
   service_failure_atomic.2.2.2.2 sampleRepo 9 (.notFound 9) (by decide)⟩

/-- C8: `parse_due_date` maps absent input to absent output; a present
string succeeds exactly when it is an ISO `YYYY-MM-DD` real calendar date;
on failure the raised `ValidationError` message contains the original
input string and ends with the expected format name `YYYY-MM-DD`. -/
theorem parse_due_date_correct :
    parse_due_date none = .ok none
    ∧ (∀ s : String,
        (∃ d, parse_due_date (some s) = .ok (some d)) ↔ isISOCalendarDate s = true)
    ∧ (∀ s : String, isISOCalendarDate s = false →
        ∃ pre post : String,
          parse_due_date (some s) = .error (.validation (pre ++ s ++ post))
          ∧ ∃ pre2 : String, pre ++ s ++ post = pre2 ++ "YYYY-MM-DD") := by
  refine ⟨rfl, ?_, ?_⟩
  · intro s
    constructor
    · rintro ⟨d, hd⟩
      simp only [parse_due_date] at hd
      cases hiso : Date.fromisoformat s with
      | none => rw [hiso] at hd; cases hd
      | some d0 =>
        have hs : (Date.fromisoformat s).isSome = true := by rw [hiso]; rfl
        rw [Date.fromisoformat, fromISOChars_isSome_eq] at hs
        exact hs
    · intro h
      have hsome : (Date.fromisoformat s).isSome = true := by
        rw [Date.fromisoformat, fromISOChars_isSome_eq]
        exact h
      cases hiso : Date.fromisoformat s with
      | none => rw [hiso] at hsome; cases hsome
      | some d0 =>
        refine ⟨d0, ?_⟩
        simp [parse_due_date, hiso]
  · intro s h
    have hnone : Date.fromisoformat s = none := by
      cases hiso : Date.fromisoformat s with
      | none => rfl
      | some d0 =>
        have hs : (Date.fromisoformat s).isSome = true := by rw [hiso]; rfl
        rw [Date.fromisoformat, fromISOChars_isSome_eq] at hs
        simp only [isISOCalendarDate] at h
        rw [hs] at h
        cases h
    refine ⟨"Invalid date format: ", ". Expected YYYY-MM-DD", ?_, ?_⟩
    · simp [parse_due_date, hnone]
    · refine ⟨"Invalid date format: " ++ s ++ ". Expected ", ?_⟩
      have hsplit : ". Expected YYYY-MM-DD" = ". Expected " ++ "YYYY-MM-DD" := by decide
      simp only [String.append_assoc]
      rw [hsplit]

/-- C8 witness: the impossible calendar date 2025-02-30 is rejected with
the documented message shape. -/
theorem parse_due_date_correct_witness :
    isISOCalendarDate "2025-02-30" = false
    ∧ (∃ pre post : String,
        parse_due_date (some "2025-02-30")
          = .error (.validation (pre ++ "2025-02-30" ++ post))
        ∧ ∃ pre2 : String, pre ++ "2025-02-30" ++ post = pre2 ++ "YYYY-MM-DD") :=
  ⟨by decide, parse_due_date_correct.2.2 "2025-02-30" (by decide)⟩

theorem keyLookup_writeTitle (l : List (Nat × Task)) (k : Nat) (s : String) :
    keyLookup (l.map (fun p => if p.1 = k then (p.1, { p.2 with title := s }) else p)) k
      = (keyLookup l k).map (fun t => { t with title := s }) := by
  induction l with
  | nil => rfl
  | cons q ps ih =>
    by_cases hq : q.1 = k
    · simp [List.map_cons, hq, keyLookup]
    · simp only [List.map_cons, if_neg hq, keyLookup, if_neg hq]
      exact ih

theorem objGet_ok_lookup {r : ObjRepo} {i a : Nat}
    (hg : ObjRepo.get r i = .ok a) : keyLookup r.tasks i = some a := by
  simp only [ObjRepo.get] at hg
  cases hl : keyLookup r.tasks i with
  | none => rw [hl] at hg; cases hg
  | some a0 => rw [hl] at hg; injection hg with hg; rw [hg]

/-- C4 counterexample: in the object-level model of the repository (heap
of mutable `Task` records, dict of references), `get` hands back the
stored reference itself; writing the title through it changes what a
subsequent `get` of the same id observes — so mutating a returned Task
does corrupt repository state, refuting the claim at this concrete
input. -/
theorem query_isolation_counterexample :
    ObjRepo.get sampleObjRepo 1 = .ok 0
    ∧ ObjRepo.observe sampleObjRepo 1
        = some ⟨1, "Buy milk", .«open», 0, none, none, []⟩
    ∧ ObjRepo.observe (ObjRepo.writeTitle sampleObjRepo 0 "hacked") 1
        = some ⟨1, "hacked", .«open», 0, none, none, []⟩
    ∧ ObjRepo.observe (ObjRepo.writeTitle sampleObjRepo 0 "hacked") 1
        ≠ ObjRepo.observe sampleObjRepo 1 := by
  decide

/-- C4 amended: `list` results are fresh list objects, but the Task values
returned by `get`/`list` are live references into internal storage: after
writing an attribute through the reference `get(i)` returned, the
id-to-reference table is unchanged and every subsequent observation of id
`i` sees the written record. -/
theorem query_results_alias_storage (r : ObjRepo) (i a : Nat) (s : String) (t : Task)
    (hg : ObjRepo.get r i = .ok a) (ht : keyLookup r.heap a = some t) :
    ObjRepo.get (ObjRepo.writeTitle r a s) i = .ok a
    ∧ ObjRepo.observe (ObjRepo.writeTitle r a s) i = some { t with title := s } := by
  have hl : keyLookup r.tasks i = some a := objGet_ok_lookup hg
  constructor
  · exact hg
  · simp only [ObjRepo.observe, ObjRepo.writeTitle, hl]
    rw [keyLookup_writeTitle r.heap a s, ht]
    rfl

/-- C4 amended witness: the aliasing theorem instantiated on the concrete
one-task object-level state. -/
theorem query_results_alias_storage_witness :
    ObjRepo.get (ObjRepo.writeTitle sampleObjRepo 0 "edited") 1 = .ok 0
    ∧ ObjRepo.observe (ObjRepo.writeTitle sampleObjRepo 0 "edited") 1
        = some { (⟨1, "Buy milk", .«open», 0, none, none, []⟩ : Task) with title := "edited" } :=
  query_results_alias_storage sampleObjRepo 1 0 "edited"
    ⟨1, "Buy milk", .«open», 0, none, none, []⟩ (by decide) (by decide)

end Todo
